import Mathlib

/-!
Verification of the `charge_assign` core (chargers.py, collectors.py) against its
natural-language specification.

Shallow embedding conventions:
- Python floats are idealised as exact rationals `ℚ`; `round(x, d)` is modelled as
  exact decimal rounding half-to-even (the rule Python documents for `round`).
- `networkx` graphs are modelled as a record with a list of atoms (dict iteration
  order in Python is insertion order, hence a list) plus the graph-level attributes
  the code touches; other node/graph attributes are an opaque association list.
- Fallible Python code (uncaught exceptions) is modelled with `Except`.
- The unbounded `while` loop of the histogram binning is modelled with explicit
  fuel; termination of the source loop is the statement that some fuel suffices.
-/

namespace ChargeAssign

/-! ### Rounding

`rhe x` is round-half-to-even of a rational to an integer, the idealisation of
Python `round` on exact values. `roundPy d x` models Python `round(x, d)`. -/

/-- Round half to even: nearest integer, ties to the even neighbour. -/
def rhe (x : ℚ) : ℤ :=
  if x - ⌊x⌋ < 1/2 then ⌊x⌋
  else if 1/2 < x - ⌊x⌋ then ⌊x⌋ + 1
  else if ⌊x⌋ % 2 = 0 then ⌊x⌋ else ⌊x⌋ + 1

/-- Models Python `round(x, d)` on exact rationals. -/
def roundPy (d : ℕ) (x : ℚ) : ℚ := (rhe (x * 10 ^ d) : ℚ) / 10 ^ d

theorem rhe_intCast (k : ℤ) : rhe (k : ℚ) = k := by
  simp [rhe, Int.floor_intCast]

theorem rhe_le (x : ℚ) : (rhe x : ℚ) ≤ x + 1/2 := by
  have hf := Int.floor_le x
  unfold rhe
  split_ifs <;> push_cast <;> linarith

theorem le_rhe (x : ℚ) : x - 1/2 ≤ (rhe x : ℚ) := by
  have hf := Int.lt_floor_add_one x
  unfold rhe
  split_ifs with h1 h2 <;> push_cast <;> linarith

theorem rhe_mono {x y : ℚ} (h : x ≤ y) : rhe x ≤ rhe y := by
  by_contra hc
  push_neg at hc
  have h1 : rhe y + 1 ≤ rhe x := hc
  have h1q : (rhe y : ℚ) + 1 ≤ (rhe x : ℚ) := by exact_mod_cast h1
  have A := rhe_le x
  have B := le_rhe y
  have hxy : x = y := le_antisymm h (by linarith)
  subst hxy
  omega

theorem rhe_zero : rhe 0 = 0 := by
  have := rhe_intCast 0
  simpa using this

theorem roundPy_mono (d : ℕ) {x y : ℚ} (h : x ≤ y) : roundPy d x ≤ roundPy d y := by
  unfold roundPy
  have hp : (0:ℚ) < 10 ^ d := by positivity
  have hm : rhe (x * 10 ^ d) ≤ rhe (y * 10 ^ d) :=
    rhe_mono (mul_le_mul_of_nonneg_right h (le_of_lt hp))
  exact (div_le_div_iff_of_pos_right hp).mpr (by exact_mod_cast hm)

theorem roundPy_zero (d : ℕ) : roundPy d 0 = 0 := by
  unfold roundPy
  rw [zero_mul]
  rw [show ((0:ℚ)) = ((0:ℤ) : ℚ) by norm_num, rhe_intCast]
  simp

theorem roundPy_nonneg (d : ℕ) {x : ℚ} (h : 0 ≤ x) : 0 ≤ roundPy d x := by
  have := roundPy_mono d h
  rwa [roundPy_zero] at this

theorem roundPy_nonpos (d : ℕ) {x : ℚ} (h : x ≤ 0) : roundPy d x ≤ 0 := by
  have := roundPy_mono d h
  rwa [roundPy_zero] at this

/-- A rational lies on the decimal grid of `d` digits after the point:
rounding to `d` digits leaves such values unchanged. -/
def OnGrid (d : ℕ) (x : ℚ) : Prop := ∃ k : ℤ, x = (k : ℚ) / 10 ^ d

theorem onGrid_roundPy (d : ℕ) (x : ℚ) : OnGrid d (roundPy d x) :=
  ⟨rhe (x * 10 ^ d), rfl⟩

theorem onGrid_intCast (d : ℕ) (T : ℤ) : OnGrid d (T : ℚ) := by
  refine ⟨T * 10 ^ d, ?_⟩
  have hp : (10:ℚ) ^ d ≠ 0 := by positivity
  field_simp

theorem onGrid_zero (d : ℕ) : OnGrid d 0 := ⟨0, by simp⟩

theorem OnGrid.add {d : ℕ} {x y : ℚ} (hx : OnGrid d x) (hy : OnGrid d y) :
    OnGrid d (x + y) := by
  obtain ⟨k, rfl⟩ := hx
  obtain ⟨m, rfl⟩ := hy
  exact ⟨k + m, by push_cast; ring⟩

theorem OnGrid.sub {d : ℕ} {x y : ℚ} (hx : OnGrid d x) (hy : OnGrid d y) :
    OnGrid d (x - y) := by
  obtain ⟨k, rfl⟩ := hx
  obtain ⟨m, rfl⟩ := hy
  exact ⟨k - m, by push_cast; ring⟩

theorem onGrid_sum {d : ℕ} : ∀ l : List ℚ, (∀ x ∈ l, OnGrid d x) → OnGrid d l.sum := by
  intro l
  induction l with
  | nil => intro _; simpa using onGrid_zero d
  | cons x xs ih =>
      intro h
      rw [List.sum_cons]
      exact (h x (List.mem_cons_self x xs)).add (ih fun y hy => h y (List.mem_cons_of_mem x hy))

theorem roundPy_eq_self {d : ℕ} {x : ℚ} (h : OnGrid d x) : roundPy d x = x := by
  obtain ⟨k, rfl⟩ := h
  unfold roundPy
  have hp : (10:ℚ) ^ d ≠ 0 := by positivity
  have hk : (k : ℚ) / 10 ^ d * 10 ^ d = (k : ℚ) := by field_simp
  rw [hk, rhe_intCast]

/-! ### Redistribution Engine (`Charger.__add_redistributed_charges`, chargers.py)

The molecule graph is modelled as a record. Atoms carry the node attributes
the redistribution step reads or writes, plus an opaque association list for
all other node attributes; likewise for the graph-level attributes. -/

/-- A node of the molecule graph, with the attributes relevant to
redistribution and an opaque list `extra` standing for all other node
attributes. -/
structure Atom where
  score : ℚ
  partial_charge : ℚ
  partial_charge_redist : Option ℚ
  extra : List (ℕ × ℚ)
  deriving DecidableEq

/-- The molecule graph: atoms in networkx iteration (insertion) order, plus the
graph-level attributes; `extra` stands for all other graph attributes. -/
structure MolGraph where
  atoms : List Atom
  score : ℚ
  total_charge : ℚ
  total_charge_redist : Option ℚ
  extra : List (ℕ × ℚ)
  deriving DecidableEq

/-- Errors the redistribution step can raise. The source can only raise
`zeroDivision` (Python `ZeroDivisionError` when `total_prop` is zero);
`degenerateConfidence` is the failure mode named by the specification, listed
here only so that statements can compare the two. -/
inductive RedistErr where
  | zeroDivision
  | degenerateConfidence
  deriving DecidableEq

/-- Source line 108: `total_score / data['score'] if data['score'] > 0 else 0`. -/
def proportionOf (total_score : ℚ) (a : Atom) : ℚ :=
  if 0 < a.score then total_score / a.score else 0

/-- Source lines 105-109: the sum of the per-atom proportions (dict iteration
order is the atom list order). -/
def totalProp (g : MolGraph) : ℚ := (g.atoms.map (proportionOf g.score)).sum

/-- Source line 112: the per-atom adjustment
`round((proportions[v] * total_error) / total_prop, rounding_digits)`. -/
def deltaOf (g : MolGraph) (total_charge : ℤ) (d : ℕ) (a : Atom) : ℚ :=
  roundPy d (proportionOf g.score a * ((total_charge : ℚ) - g.total_charge) / totalProp g)

/-- Index of the first atom score strictly below the running minimum, source
lines 115-117 (`min_score` starts at infinity, the comparison is strict, so
the first occurrence of the minimum wins). -/
def firstMinIdxAux : List ℚ → ℚ → ℕ → ℕ → ℕ
  | [], _, _, best => best
  | s :: rest, cur, i, best =>
      if s < cur then firstMinIdxAux rest s (i + 1) i
      else firstMinIdxAux rest cur (i + 1) best

/-- Index of the first occurrence of the minimal score in the list. -/
def firstMinIdx : List ℚ → ℕ
  | [] => 0
  | s :: rest => firstMinIdxAux rest s 1 0

/-- The value stored in `partial_charge_redist`, `0` when the field is unset
(never read before being set in the source). -/
def redist_charge (a : Atom) : ℚ := a.partial_charge_redist.getD 0

/-- The sum of the redistributed charges over the whole molecule. -/
def redist_sum (g : MolGraph) : ℚ := (g.atoms.map redist_charge).sum

/-- Source line 113: one atom updated by the body of the second loop,
`data['partial_charge_redist'] = round(data['partial_charge'] + delta, rounding_digits)`. -/
def redist_atom (g : MolGraph) (total_charge : ℤ) (d : ℕ) (a : Atom) : Atom :=
  { a with partial_charge_redist := some (roundPy d (a.partial_charge + deltaOf g total_charge d a)) }

/-- The atom list after the second loop of the source (before the residual fix). -/
def new_atoms (g : MolGraph) (total_charge : ℤ) (d : ℕ) : List Atom :=
  g.atoms.map (redist_atom g total_charge d)

/-- Source line 114: the accumulated `total_charge_redist` after the second loop. -/
def tcr_of (g : MolGraph) (total_charge : ℤ) (d : ℕ) : ℚ :=
  ((new_atoms g total_charge d).map redist_charge).sum

/-- Source lines 115-117: the index of `min_atom_data` after the second loop. -/
def min_idx (g : MolGraph) : ℕ := firstMinIdx (g.atoms.map Atom.score)

/-- Source lines 120-121: the minimum-score atom after absorbing the rounding
residual `total_charge - total_charge_redist`. -/
def fix_atom (g : MolGraph) (total_charge : ℤ) (d : ℕ) : Atom :=
  let b := (new_atoms g total_charge d).getD (min_idx g) ⟨0, 0, none, []⟩
  { b with partial_charge_redist := some (roundPy d (redist_charge b + (total_charge : ℚ) - tcr_of g total_charge d)) }

/-- The graph produced by a successful run of the redistribution step: the
residual goes to the first minimum-score atom (source lines 119-123), and the
graph records `total_charge_redist` (after line 122 the accumulator equals
`tcr + (total_charge - tcr)`). -/
def redistResult (g : MolGraph) (total_charge : ℤ) (d : ℕ) : MolGraph :=
  { g with atoms := (new_atoms g total_charge d).set (min_idx g) (fix_atom g total_charge d),
           total_charge_redist := some (roundPy d (tcr_of g total_charge d + ((total_charge : ℚ) - tcr_of g total_charge d))) }

/-- Model of `Charger.__add_redistributed_charges` (chargers.py lines 81-123).
Reading of the source: the first loop fills `proportions` and `total_prop`;
the second loop rounds each adjusted charge, accumulates
`total_charge_redist`, and tracks the first atom of minimal score (the scores
are not modified by the loop, so the tracked index is `firstMinIdx`); if the
graph has at least one atom, the residual is added to that atom and the graph
total is recorded. When `total_prop` is zero and at least one atom exists,
the division on line 112 raises `ZeroDivisionError` before any field is
written. On an empty graph both loops are skipped, `min_atom_data` stays
`None`, and the graph is returned unchanged. -/
def add_redistributed_charges (g : MolGraph) (total_charge : ℤ) (d : ℕ) :
    Except RedistErr MolGraph :=
  if g.atoms.isEmpty then .ok g
  else if totalProp g = 0 then .error .zeroDivision
  else .ok (redistResult g total_charge d)

/-- Modelled from the spec: the Solver (solvers.py, not part of the analysed
sources) sets the graph-level `score` attribute; per the data model it is the
aggregate confidence of the atoms, taken here as the sum of the per-atom
scores. -/
def spec_solver_score (atoms : List Atom) : ℚ := (atoms.map Atom.score).sum

/-! ### List helper lemmas for the redistribution proofs -/

theorem map_set_comm {α β : Type} : ∀ (l : List α) (j : ℕ) (v : α) (f : α → β),
    (l.set j v).map f = (l.map f).set j (f v) := by
  intro l
  induction l with
  | nil => intro j v f; simp
  | cons x xs ih =>
      intro j v f
      cases j with
      | zero => simp
      | succ n => simp [List.set, ih]

theorem getD_map_comm {α β : Type} : ∀ (l : List α) (f : α → β) (j : ℕ) (da : α),
    j < l.length → (l.map f).getD j (f da) = f (l.getD j da) := by
  intro l
  induction l with
  | nil => intro f j da h; simp at h
  | cons x xs ih =>
      intro f j da h
      cases j with
      | zero => simp
      | succ n =>
          simp only [List.map_cons, List.getD_cons_succ]
          exact ih f n da (by simpa using Nat.lt_of_succ_lt_succ h)

theorem set_getD_self {α : Type} : ∀ (l : List α) (j : ℕ) (da : α),
    j < l.length → l.set j (l.getD j da) = l := by
  intro l
  induction l with
  | nil => intro j da h; simp at h
  | cons x xs ih =>
      intro j da h
      cases j with
      | zero => simp
      | succ n =>
          simp only [List.getD_cons_succ, List.set]
          rw [ih n da (by simpa using Nat.lt_of_succ_lt_succ h)]

theorem sum_set_eq : ∀ (l : List ℚ) (j : ℕ) (v : ℚ), j < l.length →
    (l.set j v).sum = l.sum - l.getD j 0 + v := by
  intro l
  induction l with
  | nil => intro j v h; simp at h
  | cons x xs ih =>
      intro j v h
      cases j with
      | zero => simp [List.set]; ring
      | succ n =>
          simp only [List.set, List.sum_cons, List.getD_cons_succ]
          rw [ih n v (by simpa using Nat.lt_of_succ_lt_succ h)]
          ring

theorem firstMinIdxAux_lt : ∀ (l : List ℚ) (cur : ℚ) (i best N : ℕ),
    best < N → i + l.length ≤ N → firstMinIdxAux l cur i best < N := by
  intro l
  induction l with
  | nil => intro cur i best N hb _; simpa [firstMinIdxAux] using hb
  | cons s rest ih =>
      intro cur i best N hb hN
      simp only [firstMinIdxAux]
      split
      · exact ih s (i + 1) i N (by simp [List.length_cons] at hN; omega)
          (by simp [List.length_cons] at hN; omega)
      · exact ih cur (i + 1) best N hb (by simp [List.length_cons] at hN; omega)

theorem firstMinIdx_lt {l : List ℚ} (h : l ≠ []) : firstMinIdx l < l.length := by
  cases l with
  | nil => exact absurd rfl h
  | cons s rest =>
      simp only [firstMinIdx, List.length_cons]
      exact firstMinIdxAux_lt rest s 1 0 (rest.length + 1) (by omega) (by omega)

theorem map_fld_preserved {β : Type} (l : List Atom) (f : Atom → Atom) (j : ℕ)
    (junk : Atom) (fld : Atom → β) (hf : ∀ a, fld (f a) = fld a) (hj : j < l.length)
    (a' : Atom) (ha' : fld a' = fld ((l.map f).getD j junk)) :
    ((l.map f).set j a').map fld = l.map fld := by
  have hcomp : fld ∘ f = fld := funext hf
  have h1 : (l.map f).map fld = l.map fld := by rw [List.map_map, hcomp]
  have hjf : j < (l.map f).length := by simpa using hj
  rw [map_set_comm, ha', ← getD_map_comm (l.map f) fld j junk hjf, h1]
  exact set_getD_self _ j (fld junk) (by simpa using hj)

theorem isEmpty_false_of_ne_nil {α : Type} {l : List α} (h : l ≠ []) : l.isEmpty = false := by
  cases l with
  | nil => exact absurd rfl h
  | cons x xs => rfl

/-- The positivity fact behind C1: with nonnegative scores, at least one of
them positive, and the graph score equal to the aggregate of the atom scores,
the total proportion is positive (so line 112 does not divide by zero). -/
theorem totalProp_pos (g : MolGraph)
    (hnn : ∀ a ∈ g.atoms, 0 ≤ a.score)
    (hex : ∃ a ∈ g.atoms, 0 < a.score)
    (hagg : g.score = spec_solver_score g.atoms) : 0 < totalProp g := by
  obtain ⟨a0, ha0, ha0pos⟩ := hex
  have hts : 0 < g.score := by
    rw [hagg]
    unfold spec_solver_score
    have h1 : a0.score ≤ (g.atoms.map Atom.score).sum := by
      apply List.single_le_sum
      · intro x hx
        obtain ⟨b, hb, rfl⟩ := List.mem_map.mp hx
        exact hnn b hb
      · exact List.mem_map_of_mem Atom.score ha0
    linarith
  unfold totalProp
  have h1 : proportionOf g.score a0 ≤ (g.atoms.map (proportionOf g.score)).sum := by
    apply List.single_le_sum
    · intro x hx
      obtain ⟨b, hb, rfl⟩ := List.mem_map.mp hx
      unfold proportionOf
      split
      · exact div_nonneg hts.le (by linarith)
      · exact le_refl 0
    · exact List.mem_map_of_mem _ ha0
  have h2 : 0 < proportionOf g.score a0 := by
    unfold proportionOf
    rw [if_pos ha0pos]
    exact div_pos hts ha0pos
  linarith

/-- C1: for every molecule graph with at least one atom and at least one atom
having positive score, the redistribution step succeeds and the sum over all
atoms of `partial_charge_redist` equals the target total charge exactly (the
rounding residual having been added to the atom of minimum score). The
graph-level score is the solver-set aggregate of the atom scores
(`spec_solver_score`, modelled from the spec), supplied as a hypothesis. -/
theorem c1_redistribution_exactness (g : MolGraph) (T : ℤ) (d : ℕ)
    (hne : g.atoms ≠ [])
    (hnn : ∀ a ∈ g.atoms, 0 ≤ a.score)
    (hex : ∃ a ∈ g.atoms, 0 < a.score)
    (hagg : g.score = spec_solver_score g.atoms) :
    ∃ g', add_redistributed_charges g T d = .ok g' ∧ redist_sum g' = (T : ℚ) := by
  have hP : totalProp g ≠ 0 := ne_of_gt (totalProp_pos g hnn hex hagg)
  have hEmp : g.atoms.isEmpty = false := isEmpty_false_of_ne_nil hne
  refine ⟨redistResult g T d, ?_, ?_⟩
  · unfold add_redistributed_charges
    rw [hEmp]
    simp only [Bool.false_eq_true, if_false, if_neg hP]
  set L : List ℚ := (new_atoms g T d).map redist_charge with hLdef
  have hLgrid : ∀ x ∈ L, OnGrid d x := by
    intro x hx
    rw [hLdef] at hx
    obtain ⟨b, hbmem, rfl⟩ := List.mem_map.mp hx
    obtain ⟨c, _, rfl⟩ := List.mem_map.mp hbmem
    exact onGrid_roundPy d _
  have hj : min_idx g < g.atoms.length := by
    have := firstMinIdx_lt (l := g.atoms.map Atom.score) (by simpa using hne)
    simpa [min_idx] using this
  have hjL : min_idx g < L.length := by simpa [hLdef, new_atoms] using hj
  have hjf : min_idx g < (new_atoms g T d).length := by simpa [new_atoms] using hj
  have hbval : redist_charge ((new_atoms g T d).getD (min_idx g) ⟨0, 0, none, []⟩) = L.getD (min_idx g) 0 := by
    rw [hLdef]
    exact (getD_map_comm (new_atoms g T d) redist_charge (min_idx g) ⟨0, 0, none, []⟩ hjf).symm
  have hfixval : redist_charge (fix_atom g T d) =
      roundPy d (L.getD (min_idx g) 0 + (T : ℚ) - L.sum) := by
    have h0 : redist_charge (fix_atom g T d) =
        roundPy d (redist_charge ((new_atoms g T d).getD (min_idx g) ⟨0, 0, none, []⟩) + (T : ℚ) - tcr_of g T d) := rfl
    rw [h0, hbval]
    rfl
  have hgridfix : OnGrid d (L.getD (min_idx g) 0 + (T : ℚ) - L.sum) := by
    have h1 : OnGrid d (L.getD (min_idx g) 0) := by
      have hmem : L.getD (min_idx g) 0 ∈ L := by
        rw [List.getD_eq_getElem L 0 hjL]
        exact List.getElem_mem hjL
      exact hLgrid _ hmem
    exact (h1.add (onGrid_intCast d T)).sub (onGrid_sum L hLgrid)
  have hatoms : (redistResult g T d).atoms = (new_atoms g T d).set (min_idx g) (fix_atom g T d) := rfl
  calc redist_sum (redistResult g T d)
      = (((new_atoms g T d).set (min_idx g) (fix_atom g T d)).map redist_charge).sum := by
        rw [redist_sum, hatoms]
    _ = (L.set (min_idx g) (redist_charge (fix_atom g T d))).sum := by
        rw [map_set_comm, hLdef]
    _ = L.sum - L.getD (min_idx g) 0 + roundPy d (L.getD (min_idx g) 0 + (T : ℚ) - L.sum) := by
        rw [hfixval, sum_set_eq L _ _ hjL]
    _ = L.sum - L.getD (min_idx g) 0 + (L.getD (min_idx g) 0 + (T : ℚ) - L.sum) := by
        rw [roundPy_eq_self hgridfix]
    _ = (T : ℚ) := by ring

/-- Concrete instance of C1: a two-atom graph with target total charge 0 and
one rounding digit. -/
theorem c1_redistribution_exactness_witness :
    ∃ g', add_redistributed_charges ⟨[⟨1, 1/10, none, []⟩, ⟨2, -3/10, none, []⟩], 3, -1/5, none, []⟩ 0 1 = .ok g' ∧
      redist_sum g' = ((0 : ℤ) : ℚ) :=
  c1_redistribution_exactness ⟨[⟨1, 1/10, none, []⟩, ⟨2, -3/10, none, []⟩], 3, -1/5, none, []⟩ 0 1
    (by simp) (by intro a ha; simp at ha; rcases ha with h | h <;> simp [h])
    (by exact ⟨⟨1, 1/10, none, []⟩, by simp, by norm_num⟩)
    (by simp [spec_solver_score]; norm_num)

/-- C3 (amended): when the graph is non-empty and every atom has zero score,
the redistribution step raises an uncaught `ZeroDivisionError` (there is no
`DegenerateConfidence` guard in the source). -/
theorem c3_all_zero_scores_zero_division (g : MolGraph) (T : ℤ) (d : ℕ)
    (hne : g.atoms ≠ []) (hz : ∀ a ∈ g.atoms, a.score = 0) :
    add_redistributed_charges g T d = .error RedistErr.zeroDivision := by
  have hP : totalProp g = 0 := by
    unfold totalProp
    apply List.sum_eq_zero
    intro x hx
    obtain ⟨b, hb, rfl⟩ := List.mem_map.mp hx
    unfold proportionOf
    rw [hz b hb]
    norm_num
  have hEmp : g.atoms.isEmpty = false := isEmpty_false_of_ne_nil hne
  unfold add_redistributed_charges
  rw [hEmp, hP]
  simp

/-- Concrete instance of C3 (amended): a single atom of zero score. -/
theorem c3_all_zero_scores_zero_division_witness :
    add_redistributed_charges ⟨[⟨0, 1/2, none, []⟩], 0, 1/2, none, []⟩ 0 2 = .error RedistErr.zeroDivision :=
  c3_all_zero_scores_zero_division ⟨[⟨0, 1/2, none, []⟩], 0, 1/2, none, []⟩ 0 2
    (by simp) (by intro a ha; simp at ha; simp [ha])

/-- C3 counterexample: on a non-empty graph whose atoms all have zero score,
the code propagates the arithmetic `ZeroDivisionError` of line 112; it does
not raise the `DegenerateConfidence` failure named by the specification. -/
theorem c3_counterexample :
    add_redistributed_charges ⟨[⟨0, 1/2, none, []⟩], 0, 1/2, none, []⟩ 1 2 = .error RedistErr.zeroDivision ∧
      RedistErr.zeroDivision ≠ RedistErr.degenerateConfidence := by
  constructor
  · unfold add_redistributed_charges totalProp proportionOf
    norm_num
  · intro h
    cases h

/-- C10: the redistribution step writes only `partial_charge_redist` on each
atom and `total_charge_redist` on the graph; the per-atom `score`,
`partial_charge` and all other node attributes, as well as the graph-level
`score`, `total_charge` and other graph attributes, are left unchanged. -/
theorem c10_frame (g : MolGraph) (T : ℤ) (d : ℕ) (g' : MolGraph)
    (h : add_redistributed_charges g T d = .ok g') :
    g'.score = g.score ∧ g'.total_charge = g.total_charge ∧ g'.extra = g.extra ∧
    g'.atoms.length = g.atoms.length ∧
    g'.atoms.map Atom.score = g.atoms.map Atom.score ∧
    g'.atoms.map Atom.partial_charge = g.atoms.map Atom.partial_charge ∧
    g'.atoms.map Atom.extra = g.atoms.map Atom.extra := by
  unfold add_redistributed_charges at h
  by_cases h1 : g.atoms.isEmpty = true
  · rw [if_pos h1] at h
    simp only [Except.ok.injEq] at h
    subst h
    exact ⟨rfl, rfl, rfl, rfl, rfl, rfl, rfl⟩
  · rw [if_neg h1] at h
    by_cases h2 : totalProp g = 0
    · rw [if_pos h2] at h
      exact absurd h (by simp)
    rw [if_neg h2] at h
    simp only [Except.ok.injEq] at h
    subst h
    have hne : g.atoms ≠ [] := by
      intro hnil
      exact h1 (by rw [hnil]; rfl)
    have hj : min_idx g < g.atoms.length := by
      have := firstMinIdx_lt (l := g.atoms.map Atom.score) (by simpa using hne)
      simpa [min_idx] using this
    refine ⟨rfl, rfl, rfl, ?_, ?_, ?_, ?_⟩
    · show ((new_atoms g T d).set (min_idx g) (fix_atom g T d)).length = g.atoms.length
      simp [new_atoms]
    · exact map_fld_preserved g.atoms (redist_atom g T d) (min_idx g) ⟨0, 0, none, []⟩
        Atom.score (fun a => rfl) hj (fix_atom g T d) rfl
    · exact map_fld_preserved g.atoms (redist_atom g T d) (min_idx g) ⟨0, 0, none, []⟩
        Atom.partial_charge (fun a => rfl) hj (fix_atom g T d) rfl
    · exact map_fld_preserved g.atoms (redist_atom g T d) (min_idx g) ⟨0, 0, none, []⟩
        Atom.extra (fun a => rfl) hj (fix_atom g T d) rfl

/-- Input graph for the C10 witness. -/
def g10 : MolGraph := ⟨[⟨1, 0, none, []⟩], 1, 0, none, []⟩

/-- Output graph for the C10 witness: only the redistributed-charge fields
have been filled in. -/
def g10' : MolGraph := ⟨[⟨1, 0, some 0, []⟩], 1, 0, some 0, []⟩

theorem g10_eval : add_redistributed_charges g10 0 0 = .ok g10' := by
  norm_num [add_redistributed_charges, g10, g10', redistResult, new_atoms, redist_atom, tcr_of,
    min_idx, fix_atom, totalProp, proportionOf, deltaOf, firstMinIdx, firstMinIdxAux,
    redist_charge, roundPy_zero, List.getD]

/-- Concrete instance of C10 on a one-atom graph. -/
theorem c10_frame_witness :
    g10'.score = g10.score ∧ g10'.total_charge = g10.total_charge ∧ g10'.extra = g10.extra ∧
    g10'.atoms.length = g10.atoms.length ∧
    g10'.atoms.map Atom.score = g10.atoms.map Atom.score ∧
    g10'.atoms.map Atom.partial_charge = g10.atoms.map Atom.partial_charge ∧
    g10'.atoms.map Atom.extra = g10.atoms.map Atom.extra :=
  c10_frame g10 0 0 g10' g10_eval

/-! ### C9: confidence ordering of the adjustment deltas -/

/-- The sum of the reciprocals of the positive atom scores; the total
proportion factors as the graph score times this quantity. -/
def invScoreSum (g : MolGraph) : ℚ :=
  (g.atoms.map (fun v => if 0 < v.score then v.score⁻¹ else 0)).sum

theorem totalProp_eq_mul (g : MolGraph) : totalProp g = g.score * invScoreSum g := by
  unfold totalProp invScoreSum
  rw [← List.sum_map_mul_left]
  apply congrArg
  apply List.map_congr_left
  intro a _
  unfold proportionOf
  split
  · rw [div_eq_mul_inv]
  · rw [mul_zero]

theorem invScoreSum_pos (g : MolGraph) {a : Atom} (ha : a ∈ g.atoms)
    (hapos : 0 < a.score) : 0 < invScoreSum g := by
  unfold invScoreSum
  have h1 : (if 0 < a.score then a.score⁻¹ else 0) ≤
      (g.atoms.map (fun v => if 0 < v.score then v.score⁻¹ else 0)).sum := by
    apply List.single_le_sum
    · intro x hx
      obtain ⟨b, _, rfl⟩ := List.mem_map.mp hx
      split
      · positivity
      · exact le_refl 0
    · exact List.mem_map_of_mem _ ha
  rw [if_pos hapos] at h1
  have h2 : 0 < a.score⁻¹ := by positivity
  linarith

/-- On an atom of positive score, the argument of the rounding in the delta
simplifies: the graph score cancels between numerator and denominator. -/
theorem delta_arg_eq (g : MolGraph) (T : ℤ) {a : Atom} (hapos : 0 < a.score)
    (hts : g.score ≠ 0) (hS : invScoreSum g ≠ 0) :
    proportionOf g.score a * ((T : ℚ) - g.total_charge) / totalProp g =
      ((T : ℚ) - g.total_charge) / (a.score * invScoreSum g) := by
  unfold proportionOf
  rw [if_pos hapos, totalProp_eq_mul]
  have hsa : a.score ≠ 0 := ne_of_gt hapos
  field_simp
  ring

/-- C9 (amended): given two atoms with equal raw `partial_charge`, both of
positive score, where atom A has strictly lower score than atom B, and the
graph aggregate score is nonzero (so redistribution does not divide by zero),
the magnitude of the adjustment delta of A is at least that of B. -/
theorem c9_confidence_ordering (g : MolGraph) (T : ℤ) (d : ℕ) (a b : Atom)
    (ha : a ∈ g.atoms) (_hb : b ∈ g.atoms)
    (_hpc : a.partial_charge = b.partial_charge)
    (hapos : 0 < a.score) (hab : a.score < b.score) (hts : g.score ≠ 0) :
    |deltaOf g T d b| ≤ |deltaOf g T d a| := by
  have hbpos : 0 < b.score := lt_trans hapos hab
  have hS : 0 < invScoreSum g := invScoreSum_pos g ha hapos
  set E := (T : ℚ) - g.total_charge with hEdef
  have hxa : deltaOf g T d a = roundPy d (E / (a.score * invScoreSum g)) := by
    unfold deltaOf
    rw [delta_arg_eq g T hapos hts (ne_of_gt hS)]
  have hxb : deltaOf g T d b = roundPy d (E / (b.score * invScoreSum g)) := by
    unfold deltaOf
    rw [delta_arg_eq g T hbpos hts (ne_of_gt hS)]
  rw [hxa, hxb]
  have haS : 0 < a.score * invScoreSum g := by positivity
  have hbS : 0 < b.score * invScoreSum g := by positivity
  have hle : a.score * invScoreSum g ≤ b.score * invScoreSum g := by
    exact mul_le_mul_of_nonneg_right hab.le hS.le
  rcases le_or_lt 0 E with hE | hE
  · have h1 : E / (b.score * invScoreSum g) ≤ E / (a.score * invScoreSum g) := by
      gcongr
    have h2 : 0 ≤ E / (b.score * invScoreSum g) := div_nonneg hE hbS.le
    have r1 := roundPy_mono d h1
    have r2 := roundPy_nonneg d h2
    rw [abs_of_nonneg r2, abs_of_nonneg (le_trans r2 r1)]
    exact r1
  · have h1 : E / (a.score * invScoreSum g) ≤ E / (b.score * invScoreSum g) := by
      rw [div_le_div_iff₀ haS hbS]
      exact mul_le_mul_of_nonpos_left hle hE.le
    have h2 : E / (b.score * invScoreSum g) ≤ 0 :=
      div_nonpos_iff.mpr (Or.inr ⟨hE.le, hbS.le⟩)
    have r1 := roundPy_mono d h1
    have r2 := roundPy_nonpos d h2
    rw [abs_of_nonpos r2, abs_of_nonpos (le_trans r1 r2)]
    exact neg_le_neg r1

/-- Concrete instance of the amended C9: two atoms with scores 1 and 2 and
equal raw charges. -/
theorem c9_confidence_ordering_witness :
    |deltaOf ⟨[⟨1, 1/10, none, []⟩, ⟨2, 1/10, none, []⟩], 3, 0, none, []⟩ 1 1 ⟨2, 1/10, none, []⟩| ≤
      |deltaOf ⟨[⟨1, 1/10, none, []⟩, ⟨2, 1/10, none, []⟩], 3, 0, none, []⟩ 1 1 ⟨1, 1/10, none, []⟩| :=
  c9_confidence_ordering ⟨[⟨1, 1/10, none, []⟩, ⟨2, 1/10, none, []⟩], 3, 0, none, []⟩ 1 1
    ⟨1, 1/10, none, []⟩ ⟨2, 1/10, none, []⟩ (by simp) (by simp) rfl
    (by norm_num) (by norm_num) (by norm_num)

/-- C9 counterexample: with atom A of score 0 and atom B of score 1 (equal
raw partial charges), A has the lower score but receives a strictly smaller
adjustment: a zero-score atom gets proportion 0 and is not adjusted at all,
while B absorbs the whole error. -/
theorem c9_counterexample :
    (Atom.score ⟨0, 0, none, []⟩ < Atom.score ⟨1, 0, none, []⟩) ∧
    (Atom.partial_charge ⟨0, 0, none, []⟩ = Atom.partial_charge ⟨1, 0, none, []⟩) ∧
    |deltaOf ⟨[⟨0, 0, none, []⟩, ⟨1, 0, none, []⟩], 1, 0, none, []⟩ 1 0 ⟨0, 0, none, []⟩| <
      |deltaOf ⟨[⟨0, 0, none, []⟩, ⟨1, 0, none, []⟩], 1, 0, none, []⟩ 1 0 ⟨1, 0, none, []⟩| := by
  refine ⟨by norm_num, by norm_num, ?_⟩
  have hA : deltaOf ⟨[⟨0, 0, none, []⟩, ⟨1, 0, none, []⟩], 1, 0, none, []⟩ 1 0 ⟨0, 0, none, []⟩ = 0 := by
    norm_num [deltaOf, proportionOf, roundPy_zero]
  have hrhe1 : rhe 1 = 1 := by
    rw [show ((1:ℚ)) = (((1:ℤ)) : ℚ) by norm_num, rhe_intCast]
  have hB : deltaOf ⟨[⟨0, 0, none, []⟩, ⟨1, 0, none, []⟩], 1, 0, none, []⟩ 1 0 ⟨1, 0, none, []⟩ = 1 := by
    norm_num [deltaOf, proportionOf, totalProp]
    unfold roundPy
    norm_num [hrhe1]
  rw [hA, hB]
  norm_num

/-! ### Shell-argument dispatch (`Charger.charge`, chargers.py lines 65-72)

Python semantics captured by this embedding:
- `if not shell:` is a truthiness test, so it catches `None`, the integer `0`
  and the empty list alike;
- `isinstance(shell, Iterable[int])` applies `isinstance` to a subscripted
  generic, which raises `TypeError` at run time in Python, so every non-empty
  list argument raises before reaching the assignment `shells = shell`; the
  explicit `raise TypeError` in the final `else` is unreachable. -/

/-- The three shapes the `shell` argument of `charge()` can take. -/
inductive ShellArg where
  | unset
  | int (n : ℤ)
  | list (l : List ℤ)
  deriving DecidableEq

/-- The `TypeError` raised by evaluating `isinstance(shell, Iterable[int])`
on a non-int, non-falsy argument (subscripted generics cannot be used with
instance checks). -/
inductive ShellError where
  | subscriptedGenericTypeError
  deriving DecidableEq

/-- Descending insertion used to model `sorted(keys, reverse=True)`. -/
def insertDesc (x : ℤ) : List ℤ → List ℤ
  | [] => [x]
  | y :: ys => if y < x then x :: y :: ys else y :: insertDesc x ys

/-- Models `sorted(self._repo.charges_iacm.keys(), reverse=True)`. -/
def sortDesc : List ℤ → List ℤ
  | [] => []
  | x :: xs => insertDesc x (sortDesc xs)

/-- Model of the shell-argument dispatch of `Charger.charge` (chargers.py
lines 65-72), given the list of shell keys of the IACM ChargeSet of the
repository. -/
def shellsOf (repoShells : List ℤ) : ShellArg → Except ShellError (List ℤ)
  | .unset => .ok (sortDesc repoShells)
  | .int n => if n = 0 then .ok (sortDesc repoShells) else .ok [n]
  | .list l => if l.isEmpty then .ok (sortDesc repoShells) else .error .subscriptedGenericTypeError

/-- C5 (amended): for every nonzero integer passed as the shell argument, the
shell list is the singleton containing exactly that integer; the integer `0`
is caught by the falsy test `if not shell:` and selects the full descending
repository shell list instead. -/
theorem c5_int_shell_singleton (repoShells : List ℤ) (n : ℤ) (hn : n ≠ 0) :
    shellsOf repoShells (.int n) = .ok [n] := by
  simp only [shellsOf]
  rw [if_neg hn]

/-- Concrete instance of the amended C5 at shell 2. -/
theorem c5_int_shell_singleton_witness : shellsOf [1, 2, 3] (.int 2) = .ok [2] :=
  c5_int_shell_singleton [1, 2, 3] 2 (by norm_num)

/-- C5 counterexample: passing the integer shell `0` on a repository with
IACM shells 1, 2 and 3 yields the full descending shell list, not the
singleton `[0]` the claim demands. -/
theorem c5_counterexample :
    shellsOf [1, 2, 3] (.int 0) = .ok [3, 2, 1] ∧
      shellsOf [1, 2, 3] (.int 0) ≠ .ok [0] := by
  constructor
  · rfl
  · intro h
    cases h

/-- C6: for every non-empty list passed as the shell argument, the
`isinstance(shell, Iterable[int])` check on line 69 itself raises a
`TypeError` before the list can be used, contradicting the claim that the
list is used as given; the dead `else: raise TypeError(...)` branch shows
lists were intended to be accepted. -/
theorem c6_list_shell_type_error :
    shellsOf [3, 2, 1] (.list [2, 1]) = .error ShellError.subscriptedGenericTypeError ∧
      shellsOf [3, 2, 1] (.list [2, 1]) ≠ .ok [2, 1] := by
  constructor
  · rfl
  · intro h
    cases h

/-! ### Charger variants (chargers.py lines 126-250, C7) -/

/-- The collector strategies available in collectors.py. -/
inductive CollectorKind where
  | mean
  | histogram
  deriving DecidableEq

/-- The solver classes imported from charge.solvers (chargers.py line 12). -/
inductive SolverKind where
  | simple
  | ilp
  | dp
  | cdp
  deriving DecidableEq

/-- The pair of strategy objects a Charger subclass assigns to `_collector`
and `_solver` in its `__init__`. -/
structure ChargerConfig where
  collector : CollectorKind
  solver : SolverKind
  deriving DecidableEq

/-- `SimpleCharger.__init__` (lines 150-152): MeanCollector + SimpleSolver. -/
def SimpleCharger : ChargerConfig := ⟨.mean, .simple⟩

/-- `ILPCharger.__init__` (lines 182-184): HistogramCollector + ILPSolver. -/
def ILPCharger : ChargerConfig := ⟨.histogram, .ilp⟩

/-- `DPCharger.__init__` (lines 215-217): HistogramCollector + ILPSolver.
The docstring of the class says Dynamic Programming, and `DPSolver` is
imported on line 12, but line 217 assigns `ILPSolver(rounding_digits,
max_seconds)`. -/
def DPCharger : ChargerConfig := ⟨.histogram, .ilp⟩

/-- `CDPCharger.__init__` (lines 248-250): HistogramCollector + ILPSolver.
The docstring of the class says Dynamic Programming (C version), and
`CDPSolver` is imported on line 12, but line 250 assigns `ILPSolver`. -/
def CDPCharger : ChargerConfig := ⟨.histogram, .ilp⟩

/-- C7: the DP-based charger variants pair the Histogram collector with the
integer-linear-programming solver, not with a dynamic-programming solver as
their own docstrings (and the spec) state: the `_solver` field of both
`DPCharger` and `CDPCharger` is `ILPSolver`, and the imported `DPSolver` and
`CDPSolver` are never used. -/
theorem c7_dp_chargers_use_ilp_solver :
    DPCharger.collector = CollectorKind.histogram ∧
    DPCharger.solver = SolverKind.ilp ∧
    CDPCharger.solver = SolverKind.ilp ∧
    SolverKind.ilp ≠ SolverKind.dp ∧
    SolverKind.ilp ≠ SolverKind.cdp := by
  refine ⟨rfl, rfl, rfl, ?_, ?_⟩ <;> intro h <;> cases h

/-! ### Collectors (collectors.py, C2)

The nauty canonicalization oracle is external; per atom it is modelled as a
function from shell size and coloring attribute to an opaque canonical key.
A ChargeSet (`charges_iacm` / `charges_elem`) is a two-level association
list: shell size to canonical key to the stored charge list. -/

/-- The vertex-coloring attribute passed to `canonize_neighborhood`:
`iacm` or `atom_type` (elemental). -/
inductive ColorKind where
  | iacmColor
  | elemColor
  deriving DecidableEq

/-- An atom as seen by the collectors: whether the node has an `iacm`
attribute, and the canonical key of its neighborhood per shell size and
coloring (the black-box nauty oracle, fixed per atom and graph). -/
structure CAtom where
  hasIacm : Bool
  canon : ℤ → ColorKind → ℕ

/-- A ChargeSet: shell size to canonical key to list of observed charges. -/
def ChargeSet : Type := List (ℤ × List (ℕ × List ℚ))

/-- Models the Python membership test `shell in charges`. -/
def csHasShell (cs : ChargeSet) (sh : ℤ) : Bool := (List.lookup sh cs).isSome

/-- Models `charges[shell][key]` guarded by `key in charges[shell]`. -/
def csGet (cs : ChargeSet) (sh : ℤ) (key : ℕ) : Option (List ℚ) :=
  (List.lookup sh cs).bind (fun m => List.lookup key m)

/-- Model of `MeanCollector.__collect` (collectors.py lines 150-165): if the
shell is present and the canonical key (under the given coloring) is stored,
return the rounded mean of the stored values with weight 1; otherwise the
empty result (`None` here models the Python empty list). -/
def mean_collect (cs : ChargeSet) (a : CAtom) (sh : ℤ) (color : ColorKind) (d : ℕ) :
    Option (List ℚ × List ℚ) :=
  if csHasShell cs sh then
    match csGet cs sh (a.canon sh color) with
    | some values => some ([roundPy d (values.sum / (values.length : ℚ))], [1])
    | none => none
  else none

/-- Model of the per-atom shell loop of `MeanCollector.collect_values`
(collectors.py lines 125-141): at each shell, look up the IACM ChargeSet
using the `iacm` coloring when the atom has one (else elemental coloring);
on a miss with `iacm_data_only` false, look up the plain-element ChargeSet at
the same shell with elemental coloring; stop at the first shell with a
result, `none` when every shell misses (the atom joins `no_vals`). -/
def mean_collect_values_atom (ri re : ChargeSet) (iacmOnly : Bool) (a : CAtom) (d : ℕ) :
    List ℤ → Option (List ℚ × List ℚ)
  | [] => none
  | sh :: rest =>
      let c1 := mean_collect ri a sh (if a.hasIacm then ColorKind.iacmColor else ColorKind.elemColor) d
      let c2 := if c1.isNone && !iacmOnly then mean_collect re a sh ColorKind.elemColor d else c1
      match c2 with
      | some v => some v
      | none => mean_collect_values_atom ri re iacmOnly a d rest

/-- Model of the per-atom shell loop of `HistogramCollector.collect_values`
(collectors.py lines 235-255), returning the raw charge list handed to the
histogram. Faithful to the `if shell in charges_iacm: ... elif not
iacm_data_only: ...` structure of the source: when the shell is present in
the IACM ChargeSet but the key misses, the loop moves to the next shell
without consulting the plain-element ChargeSet; the plain-element set is
consulted only at shells entirely absent from the IACM set. Modelled from
the spec: the default coloring attribute of `canonize_neighborhood` (used in
the plain-element branch, nauty.py is outside the analysed sources) is the
elemental atom type. -/
def hist_collect_charges_atom (ri re : ChargeSet) (iacmOnly : Bool) (a : CAtom) :
    List ℤ → Option (List ℚ)
  | [] => none
  | sh :: rest =>
      if csHasShell ri sh then
        match csGet ri sh (a.canon sh (if a.hasIacm then ColorKind.iacmColor else ColorKind.elemColor)) with
        | some charges => some charges
        | none => hist_collect_charges_atom ri re iacmOnly a rest
      else if !iacmOnly then
        if csHasShell re sh then
          match csGet re sh (a.canon sh ColorKind.elemColor) with
          | some charges => some charges
          | none => hist_collect_charges_atom ri re iacmOnly a rest
        else hist_collect_charges_atom ri re iacmOnly a rest
      else hist_collect_charges_atom ri re iacmOnly a rest

/-- C2 (amended): under the Mean strategy, an IACM miss at a shell (with
`iacm_data_only` false) is followed by a probe of the plain-element
ChargeSet at that same shell, whose hit is returned; under the Histogram
strategy, a shell that is present in the IACM ChargeSet but whose key misses
is skipped entirely — the loop continues with the remaining shells and the
plain-element ChargeSet is not probed at that shell. -/
theorem c2_elem_fallback_mean_only :
    (∀ (ri re : ChargeSet) (a : CAtom) (d : ℕ) (sh : ℤ) (rest : List ℤ) (v : List ℚ × List ℚ),
      mean_collect ri a sh (if a.hasIacm then ColorKind.iacmColor else ColorKind.elemColor) d = none →
      mean_collect re a sh ColorKind.elemColor d = some v →
      mean_collect_values_atom ri re false a d (sh :: rest) = some v) ∧
    (∀ (ri re : ChargeSet) (a : CAtom) (sh : ℤ) (rest : List ℤ),
      csHasShell ri sh = true →
      csGet ri sh (a.canon sh (if a.hasIacm then ColorKind.iacmColor else ColorKind.elemColor)) = none →
      hist_collect_charges_atom ri re false a (sh :: rest) = hist_collect_charges_atom ri re false a rest) := by
  constructor
  · intro ri re a d sh rest v h1 h2
    simp only [mean_collect_values_atom, h1, h2]
    rfl
  · intro ri re a sh rest h1 h2
    simp only [hist_collect_charges_atom, h1, h2]
    rfl

/-- The atom used in the C2 counterexample: no `iacm` attribute, and a
constant canonical key 7 for every shell and coloring. -/
def atomX : CAtom := ⟨false, fun _ _ => 7⟩

/-- IACM ChargeSet for the C2 counterexample: shell 1 is present but stores
only key 99, so the lookup of key 7 misses. -/
def riX : ChargeSet := [(1, [(99, [1/2])])]

/-- Plain-element ChargeSet for the C2 counterexample: shell 1 stores key 7. -/
def reX : ChargeSet := [(1, [(7, [1/2])])]

/-- C2 counterexample: with `iacm_data_only` false and shells `[1]`, the
IACM lookup at shell 1 misses (the shell is present, the key is not) and the
plain-element ChargeSet holds a value for this atom at the same shell, yet
the Histogram collector returns nothing: it never probes the plain-element
set at a shell that is present in the IACM set. The Mean collector on the
same data returns the plain-element value. -/
theorem c2_counterexample :
    hist_collect_charges_atom riX reX false atomX [1] = none ∧
    csGet riX 1 (atomX.canon 1 ColorKind.elemColor) = none ∧
    csGet reX 1 (atomX.canon 1 ColorKind.elemColor) = some [1/2] ∧
    mean_collect_values_atom riX reX false atomX 1 [1] = some ([1/2], [1]) := by
  refine ⟨?_, ?_, ?_, ?_⟩
  · rfl
  · rfl
  · rfl
  · have hstep : mean_collect_values_atom riX reX false atomX 1 [1] =
        mean_collect reX atomX 1 ColorKind.elemColor 1 := rfl
    rw [hstep]
    have hmean : mean_collect reX atomX 1 ColorKind.elemColor 1 =
        some ([roundPy 1 (([(1:ℚ)/2].sum) / (([(1:ℚ)/2].length : ℕ) : ℚ))], [1]) := rfl
    rw [hmean]
    norm_num [roundPy, rhe, Int.fract]

/-- Concrete instance of the amended C2 on the `riX`/`reX` repositories. -/
theorem c2_elem_fallback_mean_only_witness :
    mean_collect_values_atom riX reX false atomX 1 [1] = some ([1/2], [1]) ∧
    hist_collect_charges_atom riX reX false atomX [1] = hist_collect_charges_atom riX reX false atomX [] := by
  constructor
  · apply c2_elem_fallback_mean_only.1 riX reX atomX 1 1 [] ([1/2], [1]) rfl
    have hmean : mean_collect reX atomX 1 ColorKind.elemColor 1 =
        some ([roundPy 1 (([(1:ℚ)/2].sum) / (([(1:ℚ)/2].length : ℕ) : ℚ))], [1]) := rfl
    rw [hmean]
    norm_num [roundPy, rhe, Int.fract]
  · exact c2_elem_fallback_mean_only.2 riX reX atomX 1 [] rfl rfl

/-! ### Histogram binning (`HistogramCollector.__calculate_histogram`,
collectors.py lines 270-328; C4 and C8)

`np.arange(start, stop, step)` produces `start + k*step` for
`k = 0, ..., ceil((stop-start)/step) - 1` (empty when the count is not
positive). `np.histogram(values, bins=edges)` counts values in half-open
bins, the last bin being closed. The `while` loop of the source is unbounded
and is modelled with explicit fuel. -/

/-- Source lines 291-293: `ceil((x / grain) - 0.5) * grain`. The `up` flag
is part of the source signature but is not read by the body. -/
def round_to (x grain : ℚ) (up : Bool) : ℚ := ⌈x / grain - 1/2⌉ * grain

/-- Python `min` over a charge list (raises on an empty list; the `[]` case
here is junk, guarded at the call site). -/
def qmin : List ℚ → ℚ
  | [] => 0
  | x :: xs => xs.foldl min x

/-- Python `max` over a charge list (same conventions as `qmin`). -/
def qmax : List ℚ → ℚ
  | [] => 0
  | x :: xs => xs.foldl max x

/-- Model of `np.arange` on rationals. -/
def arange (start stop step : ℚ) : List ℚ :=
  (List.range (⌈(stop - start) / step⌉.toNat)).map (fun (k : ℕ) => start + (k : ℚ) * step)

/-- Source line 314: `bin_edges[-1] += 1e-15`. -/
def bumpLast : List ℚ → ℚ → List ℚ
  | [], _ => []
  | [x], e => [x + e]
  | x :: y :: ys, e => x :: bumpLast (y :: ys) e

/-- The number of values falling in one histogram bin (`closedHi` marks the
final bin, which includes its right edge). -/
def countIn (values : List ℚ) (lo hi : ℚ) (closedHi : Bool) : ℕ :=
  (values.filter (fun v => decide (lo ≤ v) && (if closedHi then decide (v ≤ hi) else decide (v < hi)))).length

/-- Model of `np.histogram(values, bins=edges)`: one count per adjacent pair
of edges, the last bin closed. -/
def histCounts (values : List ℚ) : List ℚ → List ℕ
  | e1 :: e2 :: rest => countIn values e1 e2 rest.isEmpty :: histCounts values (e2 :: rest)
  | _ => []

/-- Source line 295: `grain = 10**(-rounding_digits)`. -/
def grainOf (d : ℕ) : ℚ := 1 / 10 ^ d

/-- One iteration of the body of the source `while` loop at a given
`spacing`: bin centers and bin counts (lines 300-320). -/
def binning_at (charges : List ℚ) (d : ℕ) (spacing : ℕ) : List ℚ × List ℕ :=
  let step := grainOf d * (spacing : ℚ)
  let min_charge_bin := round_to (qmin charges) step false
  let max_charge_bin := round_to (qmax charges) step true
  let bin_centers := arange min_charge_bin (max_charge_bin + step / 2) step
  let min_bin_edge := min_charge_bin - step / 2
  let max_bin_edge := max_charge_bin + step / 2
  let bin_edges := bumpLast (arange min_bin_edge (max_bin_edge + step / 2) step) (1 / 10 ^ 15)
  (bin_centers, histCounts charges bin_edges)

/-- Source lines 322-324: keep only the non-empty bins, as parallel
center/count lists. -/
def nonzeroFiltered (centers : List ℚ) (counts : List ℕ) : List ℚ × List ℕ :=
  let pairs := (centers.zip counts).filter (fun p => p.2 != 0)
  (pairs.map Prod.fst, pairs.map Prod.snd)

/-- The loop exit condition `num_bins <= max_bins` at a given spacing. -/
def acceptedAt (charges : List ℚ) (maxBins d spacing : ℕ) : Prop :=
  ((binning_at charges d spacing).2.filter (fun c => c != 0)).length ≤ maxBins

/-- The source `while` loop (lines 297-320), with explicit fuel: try
successive spacings until the occupied-bin count is at most `maxBins`. -/
def histLoop (charges : List ℚ) (maxBins d : ℕ) : ℕ → ℕ → Option (List ℚ × List ℕ)
  | 0, _ => none
  | fuel + 1, spacing =>
      if ((binning_at charges d spacing).2.filter (fun c => c != 0)).length ≤ maxBins then
        some (nonzeroFiltered (binning_at charges d spacing).1 (binning_at charges d spacing).2)
      else histLoop charges maxBins d fuel (spacing + 1)

/-- Failure modes of the modelled histogram: `emptyValues` is the Python
`ValueError` raised by `min([])` on line 303; `outOfFuel` is a modelling
artifact marking that more loop iterations than the supplied fuel would be
needed. -/
inductive HistErr where
  | emptyValues
  | outOfFuel
  deriving DecidableEq

/-- Model of `HistogramCollector.__calculate_histogram` with explicit fuel. -/
def calculate_histogram (charges : List ℚ) (maxBins d fuel : ℕ) :
    Except HistErr (List ℚ × List ℕ) :=
  match charges with
  | [] => .error .emptyValues
  | _ :: _ =>
      match histLoop charges maxBins d fuel 1 with
      | some r => .ok r
      | none => .error .outOfFuel

/-- C4 (amended): both `min_center` and `max_center` are computed by the same
round-half-down-to-nearest-step rule — the `up` flag of `round_to` is
ignored — i.e. each is the unique multiple `k*step` lying in
`[x - step/2, x + step/2)`. -/
theorem c4_round_to_half_down (x step : ℚ) (up : Bool) (h : 0 < step) :
    ∃ k : ℤ, round_to x step up = (k : ℚ) * step ∧
      x - step / 2 ≤ (k : ℚ) * step ∧ (k : ℚ) * step < x + step / 2 := by
  refine ⟨⌈x / step - 1/2⌉, rfl, ?_, ?_⟩
  · have h1 : (x / step - 1/2 : ℚ) ≤ (⌈x / step - 1/2⌉ : ℚ) := Int.le_ceil _
    have h2 := mul_le_mul_of_nonneg_right h1 h.le
    have h3 : (x / step - 1/2) * step = x - step / 2 := by
      field_simp
      ring
    linarith
  · have h1 : ((⌈x / step - 1/2⌉ : ℚ)) < x / step - 1/2 + 1 := Int.ceil_lt_add_one _
    have h2 := mul_lt_mul_of_pos_right h1 h
    have h3 : (x / step - 1/2 + 1) * step = x + step / 2 := by
      field_simp
      ring
    linarith

/-- Concrete instance of the amended C4 at the tie `x = 0.15`, `step = 0.1`. -/
theorem c4_round_to_half_down_witness :
    ∃ k : ℤ, round_to (3/20) (1/10) true = (k : ℚ) * (1/10) ∧
      (3:ℚ)/20 - (1/10) / 2 ≤ (k : ℚ) * (1/10) ∧ (k : ℚ) * (1/10) < (3:ℚ)/20 + (1/10) / 2 :=
  c4_round_to_half_down (3/20) (1/10) true (by norm_num)

/-- C4 counterexample: for `values = [0.15]` and one rounding digit the step
is `0.1` and `max(values) = 0.15` is an exact tie; the code computes
`max_center = 0.1`, strictly below the maximum value, so ties are not
rounded up (the single bin center produced by the binning is `0.1`). -/
theorem c4_counterexample :
    round_to (3/20) (1/10) true = 1/10 ∧
    (binning_at [3/20] 1 1).1 = [1/10] ∧
    ¬ ((3:ℚ)/20 ≤ round_to (3/20) (1/10) true) := by
  have h1 : round_to (3/20) (1/10) true = 1/10 := by
    unfold round_to
    norm_num
  have h1f : round_to (3/20) (1/10) false = 1/10 := by
    unfold round_to
    norm_num
  have harange : arange (1/10) (1/10 + (1/10)/2) (1/10) = [1/10] := by
    unfold arange
    have h : ((1:ℚ)/10 + (1/10)/2 - 1/10) / (1/10) = 1/2 := by norm_num
    rw [h]
    have h2 : (⌈(1:ℚ)/2⌉ : ℤ) = 1 := by
      rw [Int.ceil_eq_iff]
      constructor <;> norm_num
    rw [h2]
    simp [List.range_succ]
  refine ⟨h1, ?_, by rw [h1]; norm_num⟩
  have h320 : (3:ℚ)/20 = 1/10 + (1/10)/2 := by norm_num
  calc (binning_at [3/20] 1 1).1 = arange (1/10) (3/20) (1/10) := by
        unfold binning_at grainOf
        norm_num [qmin, qmax, h1, h1f]
    _ = [1/10] := by rw [h320]; exact harange

/-! ### Helper lemmas about `qmin`, `qmax` and the collapse of the binning
for large spacings (towards C8) -/

theorem foldl_min_le_init : ∀ (xs : List ℚ) (acc : ℚ), xs.foldl min acc ≤ acc := by
  intro xs
  induction xs with
  | nil => intro acc; simp
  | cons y ys ih =>
      intro acc
      simp only [List.foldl]
      exact le_trans (ih (min acc y)) (min_le_left acc y)

theorem foldl_min_le_mem : ∀ (xs : List ℚ) (acc v : ℚ), v ∈ xs → xs.foldl min acc ≤ v := by
  intro xs
  induction xs with
  | nil => intro acc v h; simp at h
  | cons y ys ih =>
      intro acc v h
      rcases List.mem_cons.mp h with rfl | h2
      · exact le_trans (foldl_min_le_init ys (min acc v)) (min_le_right acc v)
      · exact ih (min acc y) v h2

theorem qmin_le_mem {l : List ℚ} {v : ℚ} (h : v ∈ l) : qmin l ≤ v := by
  cases l with
  | nil => simp at h
  | cons x xs =>
      rcases List.mem_cons.mp h with rfl | h2
      · exact foldl_min_le_init xs v
      · exact foldl_min_le_mem xs x v h2

theorem init_le_foldl_max : ∀ (xs : List ℚ) (acc : ℚ), acc ≤ xs.foldl max acc := by
  intro xs
  induction xs with
  | nil => intro acc; simp
  | cons y ys ih =>
      intro acc
      simp only [List.foldl]
      exact le_trans (le_max_left acc y) (ih (max acc y))

theorem mem_le_foldl_max : ∀ (xs : List ℚ) (acc v : ℚ), v ∈ xs → v ≤ xs.foldl max acc := by
  intro xs
  induction xs with
  | nil => intro acc v h; simp at h
  | cons y ys ih =>
      intro acc v h
      rcases List.mem_cons.mp h with rfl | h2
      · exact le_trans (le_max_right acc v) (init_le_foldl_max ys (max acc v))
      · exact ih (max acc y) v h2

theorem mem_le_qmax {l : List ℚ} {v : ℚ} (h : v ∈ l) : v ≤ qmax l := by
  cases l with
  | nil => simp at h
  | cons x xs =>
      rcases List.mem_cons.mp h with rfl | h2
      · exact init_le_foldl_max xs v
      · exact mem_le_foldl_max xs x v h2

theorem round_to_eq_zero (x step : ℚ) (up : Bool) (hs : 0 < step)
    (hlo : -(step/2) < x) (hhi : x ≤ step/2) : round_to x step up = 0 := by
  unfold round_to
  have h0 : ⌈x / step - 1/2⌉ = 0 := by
    rw [Int.ceil_eq_zero_iff]
    simp only [Set.mem_Ioc]
    constructor
    · have h1 : -(1:ℚ)/2 * step < x := by linarith
      have h2 : -(1:ℚ)/2 < x / step := by
        rw [lt_div_iff₀ hs]
        linarith
      linarith
    · have h2 : x / step ≤ 1/2 := by
        rw [div_le_iff₀ hs]
        linarith
      linarith
  rw [h0]
  simp

theorem foldl_min_mem : ∀ (xs : List ℚ) (acc : ℚ), xs.foldl min acc ∈ acc :: xs := by
  intro xs
  induction xs with
  | nil => intro acc; simp
  | cons y ys ih =>
      intro acc
      simp only [List.foldl]
      rcases List.mem_cons.mp (ih (min acc y)) with he | hm
      · rcases min_choice acc y with h1 | h1
        · rw [he, h1]; exact List.mem_cons_self _ _
        · rw [he, h1]; exact List.mem_cons_of_mem _ (List.mem_cons_self _ _)
      · exact List.mem_cons_of_mem _ (List.mem_cons_of_mem _ hm)

theorem foldl_max_mem : ∀ (xs : List ℚ) (acc : ℚ), xs.foldl max acc ∈ acc :: xs := by
  intro xs
  induction xs with
  | nil => intro acc; simp
  | cons y ys ih =>
      intro acc
      simp only [List.foldl]
      rcases List.mem_cons.mp (ih (max acc y)) with he | hm
      · rcases max_choice acc y with h1 | h1
        · rw [he, h1]; exact List.mem_cons_self _ _
        · rw [he, h1]; exact List.mem_cons_of_mem _ (List.mem_cons_self _ _)
      · exact List.mem_cons_of_mem _ (List.mem_cons_of_mem _ hm)

theorem qmin_mem {l : List ℚ} (h : l ≠ []) : qmin l ∈ l := by
  cases l with
  | nil => exact absurd rfl h
  | cons x xs => exact foldl_min_mem xs x

theorem qmax_mem {l : List ℚ} (h : l ≠ []) : qmax l ∈ l := by
  cases l with
  | nil => exact absurd rfl h
  | cons x xs => exact foldl_max_mem xs x

/-- For a spacing whose step exceeds twice every absolute charge value, the
binning collapses to a single bin holding every charge. -/
theorem binning_at_collapse (charges : List ℚ) (d s : ℕ) (hne : charges ≠ [])
    (hs : 1 ≤ s) (hbound : ∀ v ∈ charges, |v| < grainOf d * (s:ℚ) / 2) :
    (binning_at charges d s).2 = [charges.length] := by
  set step := grainOf d * (s:ℚ) with hstepdef
  have hgrain : 0 < grainOf d := by unfold grainOf; positivity
  have hspos : (0:ℚ) < (s:ℚ) := by
    have h0 : (0:ℕ) < s := lt_of_lt_of_le Nat.zero_lt_one hs
    exact_mod_cast h0
  have hstep : 0 < step := mul_pos hgrain hspos
  have hminb : round_to (qmin charges) step false = 0 := by
    have hb := hbound (qmin charges) (qmin_mem hne)
    rw [abs_lt] at hb
    exact round_to_eq_zero _ _ _ hstep (by linarith [hb.1]) (le_of_lt hb.2)
  have hmaxb : round_to (qmax charges) step true = 0 := by
    have hb := hbound (qmax charges) (qmax_mem hne)
    rw [abs_lt] at hb
    exact round_to_eq_zero _ _ _ hstep (by linarith [hb.1]) (le_of_lt hb.2)
  have hedges : arange (0 - step / 2) ((0 + step / 2) + step / 2) step = [-(step/2), step/2] := by
    unfold arange
    have h1 : (((0 + step / 2) + step / 2) - (0 - step / 2)) / step = 3/2 := by
      field_simp
      ring
    rw [h1]
    have h2 : ⌈(3:ℚ)/2⌉ = 2 := by
      rw [Int.ceil_eq_iff] <;> norm_num
    rw [h2]
    simp [List.range_succ]
    ring
  have hbin2 : (binning_at charges d s).2 =
      histCounts charges (bumpLast (arange (0 - step / 2) ((0 + step / 2) + step / 2) step) (1 / 10 ^ 15)) := by
    simp only [binning_at]
    rw [← hstepdef, hminb, hmaxb]
  rw [hbin2, hedges]
  have hbump : bumpLast [-(step/2), step/2] (1 / 10 ^ 15) = [-(step/2), step/2 + 1 / 10 ^ 15] := by
    simp [bumpLast]
  rw [hbump]
  have hcounts : histCounts charges [-(step/2), step/2 + 1 / 10 ^ 15] =
      [countIn charges (-(step/2)) (step/2 + 1 / 10 ^ 15) true] := by
    simp [histCounts]
  rw [hcounts]
  have hcount : countIn charges (-(step/2)) (step/2 + 1 / 10 ^ 15) true = charges.length := by
    unfold countIn
    have hall : ∀ v ∈ charges,
        (decide (-(step/2) ≤ v) && (if (true : Bool) then decide (v ≤ step/2 + 1 / 10 ^ 15) else decide (v < step/2 + 1 / 10 ^ 15))) = true := by
      intro v hv
      have hb := hbound v hv
      rw [abs_lt] at hb
      have heps : (0:ℚ) < 1 / 10 ^ 15 := by norm_num
      simp only [if_true, Bool.and_eq_true, decide_eq_true_eq]
      exact ⟨by linarith [hb.1], by linarith [hb.2]⟩
    rw [List.filter_eq_self.mpr hall]
  rw [hcount]

/-- At a collapsing spacing the loop exit condition holds for any
`maxBins ≥ 1`. -/
theorem acceptedAt_collapse (charges : List ℚ) (maxBins d s : ℕ) (hne : charges ≠ [])
    (hs : 1 ≤ s) (hmb : 1 ≤ maxBins)
    (hbound : ∀ v ∈ charges, |v| < grainOf d * (s:ℚ) / 2) :
    acceptedAt charges maxBins d s := by
  unfold acceptedAt
  rw [binning_at_collapse charges d s hne hs hbound]
  have hlen : charges.length ≠ 0 := by
    cases charges with
    | nil => exact absurd rfl hne
    | cons x xs => simp
  have hfil : List.filter (fun c => c != 0) [charges.length] = [charges.length] := by
    apply List.filter_eq_self.mpr
    intro a ha
    simp at ha
    subst ha
    simpa using hlen
  rw [hfil]
  simpa using hmb

/-- There is always a spacing large enough for the binning to collapse to a
single occupied bin. -/
theorem exists_collapse (charges : List ℚ) (d : ℕ) (hne : charges ≠ []) :
    ∃ s : ℕ, 1 ≤ s ∧ ∀ v ∈ charges, |v| < grainOf d * (s:ℚ) / 2 := by
  set A := qmax (charges.map (fun v => |v|)) with hAdef
  have hAge : ∀ v ∈ charges, |v| ≤ A := by
    intro v hv
    exact mem_le_qmax (List.mem_map_of_mem _ hv)
  have hA0 : 0 ≤ A := by
    obtain ⟨v0, hv0⟩ : ∃ v, v ∈ charges := by
      cases charges with
      | nil => exact absurd rfl hne
      | cons x xs => exact ⟨x, List.mem_cons_self x xs⟩
    exact le_trans (abs_nonneg v0) (hAge v0 hv0)
  set y : ℚ := 2 * 10 ^ d * A with hydef
  have hy0 : 0 ≤ y := by
    rw [hydef]
    apply mul_nonneg _ hA0
    positivity
  refine ⟨(⌈y⌉).toNat + 1, by omega, ?_⟩
  intro v hv
  have hc : (0:ℤ) ≤ ⌈y⌉ := Int.ceil_nonneg hy0
  have h1 : y ≤ ((⌈y⌉).toNat : ℚ) := by
    have h2 : ((⌈y⌉).toNat : ℤ) = ⌈y⌉ := Int.toNat_of_nonneg hc
    calc y ≤ ((⌈y⌉ : ℤ) : ℚ) := Int.le_ceil y
      _ = (((⌈y⌉).toNat : ℤ) : ℚ) := by rw [h2]
      _ = ((⌈y⌉).toNat : ℚ) := by push_cast; rfl
  have hslt : y < (((⌈y⌉).toNat + 1 : ℕ) : ℚ) := by push_cast; linarith
  have hpow : (0:ℚ) < 10 ^ d := by positivity
  have hgr : grainOf d * (((⌈y⌉).toNat + 1 : ℕ) : ℚ) / 2 = (((⌈y⌉).toNat + 1 : ℕ) : ℚ) / (2 * 10 ^ d) := by
    unfold grainOf
    field_simp
    left
    ring
  have hAeq : A = y / (2 * 10 ^ d) := by
    rw [hydef]
    field_simp
  have key : A < grainOf d * (((⌈y⌉).toNat + 1 : ℕ) : ℚ) / 2 := by
    rw [hgr, hAeq]
    gcongr
  exact lt_of_le_of_lt (hAge v hv) key

/-- If the exit condition holds at some spacing reachable within the fuel,
the loop returns the filtered binning of the first accepted spacing. -/
theorem histLoop_reaches (charges : List ℚ) (maxBins d : ℕ) :
    ∀ (n spacing : ℕ), acceptedAt charges maxBins d (spacing + n) →
    ∃ s, spacing ≤ s ∧ acceptedAt charges maxBins d s ∧
      histLoop charges maxBins d (n + 1) spacing =
        some (nonzeroFiltered (binning_at charges d s).1 (binning_at charges d s).2) := by
  intro n
  induction n with
  | zero =>
      intro spacing hacc
      rw [Nat.add_zero] at hacc
      refine ⟨spacing, le_refl _, hacc, ?_⟩
      have hacc2 : ((binning_at charges d spacing).2.filter (fun c => c != 0)).length ≤ maxBins := hacc
      simp only [histLoop]
      rw [if_pos hacc2]
  | succ n ih =>
      intro spacing hacc
      by_cases h : acceptedAt charges maxBins d spacing
      · refine ⟨spacing, le_refl _, h, ?_⟩
        have h2 : ((binning_at charges d spacing).2.filter (fun c => c != 0)).length ≤ maxBins := h
        simp only [histLoop]
        rw [if_pos h2]
      · have hacc2 : acceptedAt charges maxBins d ((spacing + 1) + n) := by
          have he : (spacing + 1) + n = spacing + (n + 1) := by omega
          rw [he]
          exact hacc
        obtain ⟨s, hs1, hs2, hs3⟩ := ih (spacing + 1) hacc2
        refine ⟨s, by omega, hs2, ?_⟩
        have h2 : ¬ ((binning_at charges d spacing).2.filter (fun c => c != 0)).length ≤ maxBins := h
        simp only [histLoop]
        rw [if_neg h2]
        exact hs3

theorem zip_filter_snd_length_le : ∀ (l₁ : List ℚ) (l₂ : List ℕ),
    ((l₁.zip l₂).filter (fun p => p.2 != 0)).length ≤ (l₂.filter (fun c => c != 0)).length := by
  intro l₁
  induction l₁ with
  | nil => intro l₂; simp
  | cons a as ih =>
      intro l₂
      cases l₂ with
      | nil => simp
      | cons b bs =>
          by_cases hb : (b != 0) = true
          · simp only [List.zip_cons_cons, List.filter_cons, hb, if_true, List.length_cons]
            exact Nat.succ_le_succ (ih bs)
          · simp only [List.zip_cons_cons, List.filter_cons, hb, if_false]
            exact ih bs

theorem arange_pairwise (start stop step : ℚ) (h : 0 < step) :
    List.Pairwise (· < ·) (arange start stop step) := by
  unfold arange
  apply List.Pairwise.map _ _ (List.pairwise_lt_range _)
  intro a b hab
  have h1 : (a:ℚ) < b := by exact_mod_cast hab
  have h2 := mul_lt_mul_of_pos_right h1 h
  linarith

theorem zip_map_fst_sublist : ∀ (l₁ : List ℚ) (l₂ : List ℕ),
    ((l₁.zip l₂).map Prod.fst).Sublist l₁ := by
  intro l₁
  induction l₁ with
  | nil => intro l₂; simp
  | cons a as ih =>
      intro l₂
      cases l₂ with
      | nil => simp
      | cons b bs =>
          simp only [List.zip_cons_cons, List.map_cons]
          exact List.Sublist.cons₂ a (ih bs)

/-- Shape of the returned non-empty bins: parallel lists, at most `maxBins`
of them, all counts nonzero, centers strictly increasing. -/
theorem nonzeroFiltered_props (centers : List ℚ) (counts : List ℕ) (maxBins : ℕ)
    (hacc : (counts.filter (fun c => c != 0)).length ≤ maxBins)
    (hp : List.Pairwise (· < ·) centers) :
    (nonzeroFiltered centers counts).1.length ≤ maxBins ∧
    (nonzeroFiltered centers counts).2.length = (nonzeroFiltered centers counts).1.length ∧
    (∀ c ∈ (nonzeroFiltered centers counts).2, c ≠ 0) ∧
    List.Pairwise (· < ·) (nonzeroFiltered centers counts).1 := by
  unfold nonzeroFiltered
  refine ⟨?_, by simp, ?_, ?_⟩
  · simp only [List.length_map]
    exact le_trans (zip_filter_snd_length_le centers counts) hacc
  · intro c hc
    obtain ⟨p, hpmem, rfl⟩ := List.mem_map.mp hc
    have h1 := List.of_mem_filter hpmem
    simpa using h1
  · have hsub : (((centers.zip counts).filter (fun p => p.2 != 0)).map Prod.fst).Sublist centers := by
      have h1 : ((centers.zip counts).filter (fun p => p.2 != 0)).Sublist (centers.zip counts) :=
        List.filter_sublist _
      exact (h1.map Prod.fst).trans (zip_map_fst_sublist centers counts)
    exact hp.sublist hsub

theorem binning_at_fst (charges : List ℚ) (d s : ℕ) :
    (binning_at charges d s).1 = arange (round_to (qmin charges) (grainOf d * (s:ℚ)) false)
      (round_to (qmax charges) (grainOf d * (s:ℚ)) true + (grainOf d * (s:ℚ)) / 2)
      (grainOf d * (s:ℚ)) := rfl

/-- C8 (amended): for every non-empty input value list and `max_bins ≥ 1`
the histogram binning loop terminates (some fuel suffices) and returns at
most `max_bins` bins, all with non-zero count, as parallel (center, count)
sequences in strictly ascending order of center. -/
theorem c8_histogram_bound (charges : List ℚ) (maxBins d : ℕ)
    (hne : charges ≠ []) (hmb : 1 ≤ maxBins) :
    ∃ (fuel : ℕ) (centers : List ℚ) (counts : List ℕ),
      calculate_histogram charges maxBins d fuel = .ok (centers, counts) ∧
      centers.length ≤ maxBins ∧ counts.length = centers.length ∧
      (∀ c ∈ counts, c ≠ 0) ∧ List.Pairwise (· < ·) centers := by
  obtain ⟨s0, hs0, hbound⟩ := exists_collapse charges d hne
  have hacc0 : acceptedAt charges maxBins d s0 :=
    acceptedAt_collapse charges maxBins d s0 hne hs0 hmb hbound
  have hacc1 : acceptedAt charges maxBins d (1 + (s0 - 1)) := by
    have he : 1 + (s0 - 1) = s0 := by omega
    rw [he]
    exact hacc0
  obtain ⟨s, hs1, hacc, hloop⟩ := histLoop_reaches charges maxBins d (s0 - 1) 1 hacc1
  have hstep : (0:ℚ) < grainOf d * (s:ℚ) := by
    have hq : (0:ℚ) < (s:ℚ) := by
      have h0 : (0:ℕ) < s := lt_of_lt_of_le Nat.zero_lt_one hs1
      exact_mod_cast h0
    have hg : 0 < grainOf d := by unfold grainOf; positivity
    exact mul_pos hg hq
  have hpair : List.Pairwise (· < ·) (binning_at charges d s).1 := by
    rw [binning_at_fst]
    exact arange_pairwise _ _ _ hstep
  have hacc2 : ((binning_at charges d s).2.filter (fun c => c != 0)).length ≤ maxBins := hacc
  obtain ⟨p1, p2, p3, p4⟩ :=
    nonzeroFiltered_props (binning_at charges d s).1 (binning_at charges d s).2 maxBins hacc2 hpair
  refine ⟨(s0 - 1) + 1,
    (nonzeroFiltered (binning_at charges d s).1 (binning_at charges d s).2).1,
    (nonzeroFiltered (binning_at charges d s).1 (binning_at charges d s).2).2,
    ?_, p1, p2, p3, p4⟩
  cases charges with
  | nil => exact absurd rfl hne
  | cons c cs =>
      simp only [calculate_histogram]
      rw [hloop]

/-- Concrete instance of the amended C8: three charge values, two bins, one
rounding digit. -/
theorem c8_histogram_bound_witness :
    ∃ (fuel : ℕ) (centers : List ℚ) (counts : List ℕ),
      calculate_histogram [1/10, 2/10, 7/10] 2 1 fuel = .ok (centers, counts) ∧
      centers.length ≤ 2 ∧ counts.length = centers.length ∧
      (∀ c ∈ counts, c ≠ 0) ∧ List.Pairwise (· < ·) centers :=
  c8_histogram_bound [1/10, 2/10, 7/10] 2 1 (by simp) (by norm_num)

/-- C8 counterexample: on the empty value list the source calls
`min(charges)` (line 303), which raises `ValueError` in Python; the
algorithm returns no bins at all, so the claim fails for the empty input
list (here: the model returns the `emptyValues` error for any fuel, 3 as a
sample). -/
theorem c8_counterexample :
    calculate_histogram [] 1 0 3 = .error HistErr.emptyValues := rfl

end ChargeAssign
